import Mathlib

/-!
Verification development for the `named` attribute macro crate.

The development shallowly embeds the pure content of the three components:
the attribute parsing module, the argument reconciler (`arg_reconciler.rs`)
and the matcher generator (`lib.rs`).

Modelling conventions:
* Identifiers are `String`s; expressions carried through the pipeline are an
  abstract type parameter, since the code treats them as opaque token streams.
* `IndexMap` (external collaborator) is modelled as an association list with
  the documented insert semantics: an existing key keeps its position and gets
  the new value, a new key is appended.
* `BTreeSet` (standard library collaborator) is modelled as insertion into a
  sorted duplicate-free list.
* The two generated declarative-macro matchers are modelled as functions from the
  invocation shape (already-resolved expressions plus `name = value` pairs) to
  the expansion outcome, following the generated branch list in order; the
  branch groups indexed by the number of resolved parameters become a
  recursion over the list of still-unresolved parameter names.
* In the token model of the attribute payload, the expression operand of a
  `name = expression` pair is modelled as a single atomic token (literal,
  identifier, or delimited group); expression parsing proper is delegated to
  the external syntax collaborator by the code and is outside this model.
-/

namespace Named

/-- Source locations, abstractly: the call site of the whole attribute, a
numbered location inside the attribute payload, or a numbered function
parameter. -/
inductive Span
  | callSite
  | src (n : Nat)
  | param (n : Nat)
deriving DecidableEq

/-- String constants used by the modelled diagnostics. -/
def strEmpty : String := ""

def strS : String := "s"

def strSpace : String := " "

def strCommaSep : String := ", "

def strBacktick : String := "`"

def strLBracket : String := "["

def strRBracket : String := "]"

def strUnder : String := "__"

def strInnerSfx : String := "_inner"

def strDefaults : String := "defaults"

def strReceiverMsg : String := "`named` does not currently support functions which take `self`."

def strUnrec1 : String := "Unrecognized argument"

def strUnrec2 : String := " - attribute had argument"

def strUnrec3 : String := " but function takes argument"

def strUnrec4 : String := ": ["

def strMust1 : String := "Must specify value"

def strMust2 : String := " for non-defaulted argument"

def strMust3 : String := ": "

/-- Insert into the ordered-map model: the documented `IndexMap::insert`
semantics, an existing key keeps its position and has its value replaced,
a fresh key is appended at the end. -/
def imInsert {β : Type} : List (String × β) → String → β → List (String × β)
  | [], k, v => [(k, v)]
  | (k2, v2) :: t, k, v => if k2 = k then (k2, v) :: t else (k2, v2) :: imInsert t k v

/-- Build an ordered map by inserting the entries of a list from left to
right, as the loop in `Attributes::defaults` does. -/
def imOfList {β : Type} (l : List (String × β)) : List (String × β) :=
  l.foldl (fun m kv => imInsert m kv.1 kv.2) []

/-- Key lookup in the ordered-map model. -/
def imLookup {β : Type} (m : List (String × β)) (k : String) : Option β :=
  (m.find? (fun p => p.1 == k)).map (fun p => p.2)

/-- Specification-side helper: the value of the last entry of the list that
carries the given key, if any (last write wins). -/
def lastVal {β : Type} : List (String × β) → String → Option β
  | [], _ => none
  | (k2, v) :: t, k =>
    match lastVal t k with
    | some w => some w
    | none => if k2 = k then some v else none

/-- Specification-side helper: the key sequence with every key kept at its
first occurrence only, relative to an already-seen accumulator. -/
def seenKeys : List String → List String → List String
  | _, [] => []
  | seen, k :: t => if k ∈ seen then seenKeys seen t else k :: seenKeys (seen ++ [k]) t

/-- Specification-side helper: first-seen deduplication of a key sequence. -/
def firstKeys (l : List String) : List String := seenKeys [] l

/-- Lexicographic strict order on character lists by Unicode scalar value;
for valid strings this coincides with the byte-wise UTF-8 order `BTreeSet`
sorts by. -/
def lexLtB : List Char → List Char → Bool
  | [], [] => false
  | [], _ :: _ => true
  | _ :: _, [] => false
  | a :: as, b :: bs =>
    if a.toNat < b.toNat then true
    else if b.toNat < a.toNat then false
    else lexLtB as bs

/-- Strict order on strings used by the sorted-set model. -/
def strLtB (a b : String) : Bool := lexLtB a.data b.data

/-- Insertion into the sorted-set model of `BTreeSet`. -/
def strInsert (x : String) : List String → List String
  | [] => [x]
  | y :: t => if strLtB x y then x :: y :: t else if x = y then y :: t else y :: strInsert x t

/-- The sorted duplicate-free name set a `BTreeSet` collects from a list. -/
def btreeSet (l : List String) : List String :=
  l.foldl (fun s x => strInsert x s) []

/-- A function parameter pattern: a plain identifier or anything else. -/
inductive Pat
  | ident (n : String)
  | other (desc : String)

/-- A function signature input: a receiver (`self`) or a typed pattern. -/
inductive FnArg
  | receiver
  | typed (p : Pat)

/-- Outcome of walking the parameter list: the identifiers in order, a
located recoverable error, or an abort of macro processing. -/
inductive ExtractRes
  | ok (names : List String)
  | failed (sp : Span) (msg : String)
  | panicked (desc : String)

/-- Walk the input list in declaration order, as the iterator in `reconcile`
does: a receiver produces a located `syn::Error`, a non-identifier pattern
aborts processing, an identifier is collected.  The collecting iterator stops
at the first offending input. -/
def extractArgsAux : Nat → List FnArg → ExtractRes
  | _, [] => ExtractRes.ok []
  | i, FnArg.receiver :: _ => ExtractRes.failed (Span.param i) strReceiverMsg
  | i, FnArg.typed (Pat.ident n) :: rest =>
    match extractArgsAux (i + 1) rest with
    | ExtractRes.ok ns => ExtractRes.ok (n :: ns)
    | e => e
  | _, FnArg.typed (Pat.other d) :: _ => ExtractRes.panicked d

/-- Parameter identifier extraction for a whole signature. -/
def extractArgs (l : List FnArg) : ExtractRes := extractArgsAux 0 l

/-- The Resolved Argument Table built at the end of `reconcile`: one entry
per element of the sorted name set of the parameters, with the default
expression looked up by name in the attribute map. -/
def reconcileDefaults {α : Type} (argNames : List String) (decls : List (String × Span × α)) :
    List (String × Option α) :=
  (btreeSet argNames).map (fun a => (a, (imLookup (imOfList decls) a).map (fun p => p.2)))

/-- The extras computed by the reconciler: the sorted attribute name set
minus the sorted parameter name set. -/
def extrasOf {α : Type} (argNames : List String) (decls : List (String × Span × α)) :
    List String :=
  (btreeSet ((imOfList decls).map (fun p => p.1))).filter
    (fun a => decide (¬ a ∈ btreeSet argNames))

/-- The message of the extras diagnostic, assembled with the singular/plural
suffixes exactly as the `format!` call in `reconcile` does. -/
def extrasMsg (extrasStr : String) (plural : Bool) (fnArgNames : List String) : String :=
  let sfx := if plural then strS else strEmpty
  let fnSfx := if fnArgNames.length = 1 then strEmpty else strS
  strUnrec1 ++ sfx ++ strUnrec2 ++ sfx ++ strSpace ++ extrasStr ++ strUnrec3 ++ fnSfx ++
    strUnrec4 ++ String.intercalate strCommaSep fnArgNames ++ strRBracket

/-- Outcome of `reconcile`: an abort, a located error, or the parameter list
in declaration order together with the Resolved Argument Table. -/
inductive ReconcileRes (α : Type)
  | panicked (desc : String)
  | failed (sp : Span) (msg : String)
  | ok (args : List String) (defaults : List (String × Option α))

/-- The reconciler.  Walks the signature, builds the attribute map, computes
the sorted name sets, reports extra default names (one extra: at its own
declaration, several: at the call site, listed in sorted order), and
otherwise produces the Resolved Argument Table. -/
def reconcile {α : Type} (fnArgs : List FnArg) (decls : List (String × Span × α)) :
    ReconcileRes α :=
  match extractArgs fnArgs with
  | ExtractRes.panicked d => ReconcileRes.panicked d
  | ExtractRes.failed sp msg => ReconcileRes.failed sp msg
  | ExtractRes.ok argNames =>
    let dmap := imOfList decls
    let fnArgNames := btreeSet argNames
    match extrasOf argNames decls with
    | [] => ReconcileRes.ok argNames (reconcileDefaults argNames decls)
    | [e] =>
      ReconcileRes.failed (((imLookup dmap e).map (fun p => p.1)).getD Span.callSite)
        (extrasMsg (strBacktick ++ e ++ strBacktick) false fnArgNames)
    | es =>
      ReconcileRes.failed Span.callSite
        (extrasMsg (strLBracket ++ String.intercalate strCommaSep es ++ strRBracket) true
          fnArgNames)

/-- Name formatting used in call-site diagnostics: one name in backticks, a
list of names in brackets. -/
def formatNames (names : List String) : String :=
  if names.length = 1 then strBacktick ++ names.headD strEmpty ++ strBacktick
  else strLBracket ++ String.intercalate strCommaSep names ++ strRBracket

/-- The missing-required-arguments message, assembled with the
singular/plural suffixes exactly as `report_missing` does. -/
def reportMissing (missing : List String) : String :=
  let sfx := if missing.length = 1 then strEmpty else strS
  strMust1 ++ sfx ++ strMust2 ++ sfx ++ strMust3 ++ formatNames missing

/-- A call-site error synthesized into a macro expansion. -/
inductive ExpErr
  | missingRequired (names : List String)
  | unrecognizedArg (name : String) (expected : List String)
deriving DecidableEq

/-- The result of expanding a generated matcher at a call site: a positional
call to the renamed function, a synthesized compile error, a generation-time
abort, or no matching macro branch. -/
inductive Expansion (α : Type)
  | call (values : List α)
  | err (e : ExpErr)
  | panicked
  | noRules
deriving DecidableEq

/-- The accumulator matcher, one recursion step per branch group of the
generated inner macro.  `args` is the full declared parameter list (used by
the too-many-arguments diagnostics), `todoA` the still-unresolved parameter
names (the declared list minus the first `es.length` entries), `tdefs` the
rest of the Resolved Argument Table after the same number of entries, `es`
the already-resolved expressions and the last argument the remaining
`name = value` pairs.  The branch order of the generated macro is preserved:
for each group first the terminal no-more-pairs branch, then the
name-matches-next branches, then the out-of-order branches that fill the next
position from the head of the remaining table. -/
def innerLoop {α : Type} (args : List String) :
    List String → List (String × Option α) → List α → List (String × α) → Expansion α
  | _, tdefs, es, [] =>
    let missing := (tdefs.filter (fun p => p.2.isNone)).map (fun p => p.1)
    if missing.isEmpty then Expansion.call (es ++ tdefs.filterMap (fun p => p.2))
    else Expansion.err (ExpErr.missingRequired missing)
  | [], _, _, (n, _) :: _ => Expansion.err (ExpErr.unrecognizedArg n args)
  | a :: todoA, tdefs, es, (n, v) :: rest =>
    if n = a then innerLoop args todoA tdefs.tail (es ++ [v]) rest
    else
      match tdefs with
      | [] => Expansion.panicked
      | (name2, odflt) :: tdefs2 =>
        match odflt with
        | some d => innerLoop args todoA tdefs2 (es ++ [d]) ((n, v) :: rest)
        | none => Expansion.err (ExpErr.missingRequired [name2])

/-- Invocation of the generated inner macro with `es` already-resolved
expressions followed by `name = value` pairs. -/
def expandInner {α : Type} (args : List String) (table : List (String × Option α))
    (es : List α) (pairs : List (String × α)) : Expansion α :=
  if es.length ≤ args.length then
    innerLoop args (args.drop es.length) (table.drop es.length) es pairs
  else Expansion.noRules

/-- Invocation of the generated public matcher with `name = value` pairs,
following the branch list generated for it: for a function without
parameters only the empty invocation, otherwise first the two branches whose
first pair names the first parameter, then the two out-of-order branches that
use the default stored in the head of the table (a generation-time unwrap
aborts if the table is empty), then the empty invocation. -/
def expandPublic {α : Type} (args : List String) (table : List (String × Option α))
    (pairs : List (String × α)) : Expansion α :=
  match args with
  | [] =>
    match pairs with
    | [] => Expansion.call []
    | _ :: _ => Expansion.noRules
  | a0 :: _ =>
    match pairs with
    | [] => expandInner args table [] []
    | (n, v) :: rest =>
      if n = a0 then expandInner args table [v] rest
      else
        match table.head? with
        | none => Expansion.panicked
        | some (_, odflt) =>
          match odflt with
          | some d => expandInner args table [d] ((n, v) :: rest)
          | none => Expansion.err (ExpErr.missingRequired [a0])

/-- The renamed private copy of the function: a fixed prefix. -/
def dunderName (n : String) : String := strUnder ++ n

/-- The generated accumulator macro name: the renamed name plus a fixed
suffix. -/
def innerNameOf (n : String) : String := dunderName n ++ strInnerSfx

/-- The set of names the generator introduces besides the public matcher
(which keeps the original name). -/
def derivedNames (n : String) : List String := [dunderName n, innerNameOf n]

/-- The top-level output of the attribute: an abort, the degenerate
always-failing construct holding the stored diagnostic, or the generated
matchers driven by the parameter list and the Resolved Argument Table. -/
inductive NamedOut (α : Type)
  | panicked (desc : String)
  | fallback (sp : Span) (msg : String)
  | generated (args : List String) (table : List (String × Option α))

/-- The attribute entry point: reconcile, and on failure emit the fallback
construct instead of the matchers. -/
def namedExpand {α : Type} (fnArgs : List FnArg) (decls : List (String × Span × α)) :
    NamedOut α :=
  match reconcile fnArgs decls with
  | ReconcileRes.panicked d => NamedOut.panicked d
  | ReconcileRes.failed sp msg => NamedOut.fallback sp msg
  | ReconcileRes.ok args table => NamedOut.generated args table

/-- Delimiters of a token group. -/
inductive Delim
  | paren
  | bracket
  | brace

/-- The token-tree model of the attribute payload. -/
inductive Tok
  | ident (s : String)
  | lit (n : Nat)
  | eq
  | comma
  | group (d : Delim) (ts : List Tok)

/-- A parse failure: the unexpected token, or an unexpected end of input. -/
inductive PErr
  | unexpected (t : Tok)
  | endOfInput

/-- Tokens accepted as the (atomically modelled) expression operand. -/
def isAtomTok : Tok → Bool
  | Tok.ident _ => true
  | Tok.lit _ => true
  | Tok.group _ _ => true
  | _ => false

/-- The comma-terminated list of `name = expression` pairs inside the
parentheses, as `parse_terminated(Default::parse)` consumes it: after each
pair either the input ends or a comma follows (a trailing comma is allowed);
each pair is an identifier, an equals sign and an expression operand. -/
def parsePairs : List Tok → Except PErr (List (String × Tok))
  | [] => Except.ok []
  | Tok.ident n :: Tok.eq :: t :: rest =>
    if isAtomTok t then
      match rest with
      | [] => Except.ok [(n, t)]
      | Tok.comma :: rest2 => (parsePairs rest2).map (fun ds => (n, t) :: ds)
      | u :: _ => Except.error (PErr.unexpected u)
    else Except.error (PErr.unexpected t)
  | Tok.ident _ :: Tok.eq :: [] => Except.error PErr.endOfInput
  | Tok.ident _ :: u :: _ => Except.error (PErr.unexpected u)
  | Tok.ident _ :: [] => Except.error PErr.endOfInput
  | u :: _ => Except.error (PErr.unexpected u)

/-- The whole payload, as `parse_terminated(Attribute::parse)` consumes it: a
possibly empty comma-terminated list of items, each item being the fixed
keyword (checked by a lookahead that otherwise errors at the offending token)
followed by a parenthesized pair list. -/
def parseAttrs : List Tok → Except PErr (List (List (String × Tok)))
  | [] => Except.ok []
  | Tok.ident s :: rest0 =>
    if s == strDefaults then
      match rest0 with
      | Tok.group Delim.paren inner :: rest =>
        match parsePairs inner with
        | Except.error e => Except.error e
        | Except.ok ds =>
          match rest with
          | [] => Except.ok [ds]
          | Tok.comma :: rest2 => (parseAttrs rest2).map (fun gs => ds :: gs)
          | u :: _ => Except.error (PErr.unexpected u)
      | u :: _ => Except.error (PErr.unexpected u)
      | [] => Except.error PErr.endOfInput
    else Except.error (PErr.unexpected (Tok.ident s))
  | u :: _ => Except.error (PErr.unexpected u)

/-- Modelled from the specification wording: the language of pair lists, a
comma-separated `name = expression` list with an optional trailing comma. -/
def pairsLang : List Tok → Bool
  | [] => true
  | Tok.ident _ :: Tok.eq :: t :: rest =>
    isAtomTok t &&
      (match rest with
       | [] => true
       | Tok.comma :: r2 => pairsLang r2
       | _ => false)
  | _ => false

/-- Modelled from the specification wording: the language the payload parser
actually accepts, a possibly empty comma-separated sequence of
keyword-plus-parenthesized-pair-list groups with optional trailing comma. -/
def attrLang : List Tok → Bool
  | [] => true
  | Tok.ident s :: Tok.group Delim.paren inner :: rest =>
    s == strDefaults && pairsLang inner &&
      (match rest with
       | [] => true
       | Tok.comma :: r2 => attrLang r2
       | _ => false)
  | _ => false

/-- Modelled from the claim wording: the single claimed grammar form, exactly
one keyword introducing one parenthesized pair list. -/
def claimedForm : List Tok → Bool
  | [Tok.ident s, Tok.group Delim.paren inner] => s == strDefaults && pairsLang inner
  | _ => false

/-- Whether an `Except`-valued parse succeeded. -/
def exOk {ε γ : Type} : Except ε γ → Bool
  | Except.ok _ => true
  | Except.error _ => false

/-- The fully spelled singular prefix of the extras diagnostic. -/
def strUnrecSingPre : String := "Unrecognized argument - attribute had argument "

/-- The fully spelled plural prefix of the extras diagnostic. -/
def strUnrecPlurPre : String := "Unrecognized arguments - attribute had arguments "

/-- The fully spelled singular prefix of the missing-required message. -/
def strMustSingPre : String := "Must specify value for non-defaulted argument: "

/-- The fully spelled plural prefix of the missing-required message. -/
def strMustPlurPre : String := "Must specify values for non-defaulted arguments: "

theorem lexLtB_irrefl : ∀ l : List Char, lexLtB l l = false := by
  intro l
  induction l with
  | nil => rfl
  | cons a t ih => simp [lexLtB, ih]

theorem lexLtB_trans : ∀ {a b c : List Char}, lexLtB a b = true → lexLtB b c = true →
    lexLtB a c = true := by
  intro a
  induction a with
  | nil =>
    intro b c hab hbc
    cases c with
    | nil =>
      cases b with
      | nil => simp [lexLtB] at hab
      | cons y ys => simp [lexLtB] at hbc
    | cons z zs => simp [lexLtB]
  | cons x xs ih =>
    intro b c hab hbc
    cases b with
    | nil => simp [lexLtB] at hab
    | cons y ys =>
      cases c with
      | nil => simp [lexLtB] at hbc
      | cons z zs =>
        simp only [lexLtB] at hab hbc ⊢
        split at hab
        · rename_i hxy
          split at hbc
          · rename_i hyz
            have : x.toNat < z.toNat := Nat.lt_trans hxy hyz
            simp [this]
          · split at hbc
            · simp at hbc
            · rename_i hyz hzy
              have hyz2 : y.toNat = z.toNat :=
                Nat.le_antisymm (Nat.le_of_not_lt hzy) (Nat.le_of_not_lt hyz)
              have : x.toNat < z.toNat := hyz2 ▸ hxy
              simp [this]
        · split at hab
          · simp at hab
          · rename_i hxy hyx
            have hxy2 : x.toNat = y.toNat :=
              Nat.le_antisymm (Nat.le_of_not_lt hyx) (Nat.le_of_not_lt hxy)
            split at hbc
            · rename_i hyz
              have : x.toNat < z.toNat := hxy2 ▸ hyz
              simp [this]
            · split at hbc
              · simp at hbc
              · rename_i hyz hzy
                have hyz2 : y.toNat = z.toNat :=
                  Nat.le_antisymm (Nat.le_of_not_lt hzy) (Nat.le_of_not_lt hyz)
                have hxz : x.toNat = z.toNat := hxy2.trans hyz2
                rw [hxz]
                simp [Nat.lt_irrefl]
                exact ih hab hbc

theorem lexLtB_total : ∀ a b : List Char, lexLtB a b = true ∨ lexLtB b a = true ∨ a = b := by
  intro a
  induction a with
  | nil =>
    intro b
    cases b with
    | nil => right; right; rfl
    | cons y ys => left; rfl
  | cons x xs ih =>
    intro b
    cases b with
    | nil => right; left; rfl
    | cons y ys =>
      rcases Nat.lt_trichotomy x.toNat y.toNat with h | h | h
      · left; simp [lexLtB, h]
      · have hxy : x = y :=
          Char.eq_of_val_eq (UInt32.eq_of_toBitVec_eq (BitVec.eq_of_toNat_eq h))
        rcases ih ys with h2 | h2 | h2
        · left; simp [lexLtB, h, Nat.lt_irrefl, h2]
        · right; left; simp [lexLtB, h.symm, Nat.lt_irrefl, h2]
        · right; right; rw [hxy, h2]
      · right; left; simp [lexLtB, h, Nat.lt_asymm h]

theorem strLtB_irrefl (a : String) : strLtB a a = false := lexLtB_irrefl a.data

theorem strLtB_trans {a b c : String} (h1 : strLtB a b = true) (h2 : strLtB b c = true) :
    strLtB a c = true := lexLtB_trans h1 h2

theorem strLtB_total (a b : String) : strLtB a b = true ∨ strLtB b a = true ∨ a = b := by
  rcases lexLtB_total a.data b.data with h | h | h
  · exact Or.inl h
  · exact Or.inr (Or.inl h)
  · right; right
    cases a; cases b; simp_all

theorem strLtB_of_ne_of_not_lt {a b : String} (hne : a ≠ b) (hnlt : ¬ strLtB a b = true) :
    strLtB b a = true := by
  rcases strLtB_total a b with h | h | h
  · exact absurd h hnlt
  · exact h
  · exact absurd h hne

theorem mem_strInsert {x z : String} : ∀ {s : List String},
    z ∈ strInsert x s ↔ z = x ∨ z ∈ s := by
  intro s
  induction s with
  | nil => simp [strInsert]
  | cons y t ih =>
    simp only [strInsert]
    split
    · simp [List.mem_cons]
    · split
      · rename_i heq
        subst heq
        constructor
        · intro h; exact Or.inr h
        · intro h
          rcases h with rfl | h
          · exact List.mem_cons_self _ _
          · exact h
      · rename_i hnlt hne
        simp only [List.mem_cons, ih]
        tauto

theorem pairwise_strInsert {x : String} : ∀ {s : List String},
    s.Pairwise (fun a b => strLtB a b = true) →
    (strInsert x s).Pairwise (fun a b => strLtB a b = true) := by
  intro s
  induction s with
  | nil => intro _; simp [strInsert]
  | cons y t ih =>
    intro hp
    rcases List.pairwise_cons.mp hp with ⟨hy, ht⟩
    simp only [strInsert]
    split
    · rename_i hlt
      refine List.pairwise_cons.mpr ⟨?_, hp⟩
      intro z hz
      rcases List.mem_cons.mp hz with rfl | hz2
      · exact hlt
      · exact strLtB_trans hlt (hy z hz2)
    · split
      · exact hp
      · rename_i hnlt hne
        have hyx : strLtB y x = true := strLtB_of_ne_of_not_lt hne hnlt
        refine List.pairwise_cons.mpr ⟨?_, ih ht⟩
        intro z hz
        rcases mem_strInsert.mp hz with rfl | hz2
        · exact hyx
        · exact hy z hz2

theorem length_strInsert_le {x : String} : ∀ {s : List String},
    (strInsert x s).length ≤ s.length + 1 := by
  intro s
  induction s with
  | nil => simp [strInsert]
  | cons y t ih =>
    simp only [strInsert]
    split
    · simp
    · split
      · simp
      · simp only [List.length_cons]
        omega

theorem btreeSet_invariant (l : List String) : ∀ (s : List String),
    s.Pairwise (fun a b => strLtB a b = true) →
    ((l.foldl (fun s x => strInsert x s) s).Pairwise (fun a b => strLtB a b = true) ∧
      (∀ z, z ∈ l.foldl (fun s x => strInsert x s) s ↔ z ∈ l ∨ z ∈ s) ∧
      (l.foldl (fun s x => strInsert x s) s).length ≤ l.length + s.length) := by
  induction l with
  | nil => intro s hs; simpa using hs
  | cons x t ih =>
    intro s hs
    have h1 := ih (strInsert x s) (pairwise_strInsert hs)
    refine ⟨h1.1, ?_, ?_⟩
    · intro z
      rw [List.foldl_cons, h1.2.1 z, mem_strInsert]
      simp only [List.mem_cons]
      tauto
    · have h2 := h1.2.2
      have h3 : (strInsert x s).length ≤ s.length + 1 := length_strInsert_le
      simp only [List.foldl_cons, List.length_cons]
      omega

theorem btreeSet_pairwise (l : List String) :
    (btreeSet l).Pairwise (fun a b => strLtB a b = true) :=
  (btreeSet_invariant l [] (List.Pairwise.nil)).1

theorem mem_btreeSet {l : List String} {z : String} : z ∈ btreeSet l ↔ z ∈ l := by
  have := (btreeSet_invariant l [] (List.Pairwise.nil)).2.1 z
  simpa [btreeSet] using this

theorem length_btreeSet_le (l : List String) : (btreeSet l).length ≤ l.length := by
  have := (btreeSet_invariant l [] (List.Pairwise.nil)).2.2
  simpa [btreeSet] using this

theorem btreeSet_nodup (l : List String) : (btreeSet l).Nodup := by
  refine (btreeSet_pairwise l).imp ?_
  intro a b hab
  intro hEq
  subst hEq
  rw [strLtB_irrefl a] at hab
  exact Bool.false_ne_true hab

theorem imLookup_cons {β : Type} (yk : String) (yv : β) (t : List (String × β)) (k : String) :
    imLookup ((yk, yv) :: t) k = if yk = k then some yv else imLookup t k := by
  by_cases h : yk = k
  · have hb : (yk == k) = true := by simp [h]
    simp [imLookup, List.find?_cons, hb, h]
  · have hb : (yk == k) = false := by simp [h]
    simp [imLookup, List.find?_cons, hb, h]

theorem imLookup_imInsert {β : Type} :
    ∀ (m : List (String × β)) (k k2 : String) (v : β),
    imLookup (imInsert m k v) k2 = if k2 = k then some v else imLookup m k2 := by
  intro m
  induction m with
  | nil =>
    intro k k2 v
    simp only [imInsert]
    rw [imLookup_cons]
    by_cases h : k2 = k
    · subst h; simp
    · have h2 : ¬ (k = k2) := fun h3 => h h3.symm
      simp [h, h2]
  | cons y t ih =>
    intro k k2 v
    obtain ⟨yk, yv⟩ := y
    simp only [imInsert]
    by_cases h : yk = k
    · subst h
      rw [if_pos rfl, imLookup_cons, imLookup_cons]
      by_cases h2 : k2 = yk
      · subst h2; simp
      · have h3 : ¬ (yk = k2) := fun h4 => h2 h4.symm
        simp [h2, h3]
    · rw [if_neg h, imLookup_cons, ih, imLookup_cons]
      by_cases h2 : k2 = k
      · subst h2
        have h3 : ¬ (yk = k2) := h
        simp [h3]
      · by_cases h3 : yk = k2 <;> simp [h2, h3]

theorem imLookup_foldl {β : Type} :
    ∀ (l m : List (String × β)) (k : String),
    imLookup (l.foldl (fun m kv => imInsert m kv.1 kv.2) m) k =
      match lastVal l k with
      | some w => some w
      | none => imLookup m k := by
  intro l
  induction l with
  | nil => intro m k; simp [lastVal]
  | cons x t ih =>
    intro m k
    obtain ⟨xk, xv⟩ := x
    simp only [List.foldl_cons]
    rw [ih]
    simp only [lastVal]
    cases hlv : lastVal t k with
    | some w => rfl
    | none =>
      rw [imLookup_imInsert]
      by_cases h : k = xk
      · subst h; simp
      · have h2 : ¬ (xk = k) := fun h3 => h h3.symm
        simp [h, h2]

theorem imLookup_imOfList {β : Type} (l : List (String × β)) (k : String) :
    imLookup (imOfList l) k = lastVal l k := by
  rw [imOfList, imLookup_foldl]
  cases lastVal l k with
  | none => rfl
  | some w => rfl

theorem keys_imInsert {β : Type} :
    ∀ (m : List (String × β)) (k : String) (v : β),
    (imInsert m k v).map (fun p => p.1) =
      if k ∈ m.map (fun p => p.1) then m.map (fun p => p.1)
      else m.map (fun p => p.1) ++ [k] := by
  intro m
  induction m with
  | nil => intro k v; simp [imInsert]
  | cons y t ih =>
    intro k v
    obtain ⟨yk, yv⟩ := y
    simp only [imInsert]
    by_cases h : yk = k
    · subst h; simp
    · simp only [h, ite_false, List.map_cons, ih, List.mem_cons]
      have h3 : ¬ (k = yk) := fun h4 => h h4.symm
      by_cases h2 : k ∈ t.map (fun p => p.1)
      · simp [h2, h3]
      · simp [h2, h3]

theorem keys_foldl {β : Type} :
    ∀ (l m : List (String × β)),
    ((l.foldl (fun m kv => imInsert m kv.1 kv.2) m).map (fun p => p.1)) =
      m.map (fun p => p.1) ++
        seenKeys (m.map (fun p => p.1)) (l.map (fun p => p.1)) := by
  intro l
  induction l with
  | nil => intro m; simp [seenKeys]
  | cons x t ih =>
    intro m
    simp only [List.foldl_cons, List.map_cons, seenKeys]
    rw [ih]
    rw [keys_imInsert]
    by_cases h : x.1 ∈ m.map (fun p => p.1)
    · simp [h]
    · simp only [h, ite_false, if_false]
      rw [List.append_assoc]
      simp

theorem keys_imOfList {β : Type} (l : List (String × β)) :
    (imOfList l).map (fun p => p.1) = firstKeys (l.map (fun p => p.1)) := by
  rw [imOfList, keys_foldl]
  simp [firstKeys]

theorem lastVal_isSome {β : Type} :
    ∀ (l : List (String × β)) (k : String),
    (lastVal l k).isSome = true ↔ k ∈ l.map (fun p => p.1) := by
  intro l
  induction l with
  | nil => intro k; simp [lastVal]
  | cons x t ih =>
    intro k
    obtain ⟨xk, xv⟩ := x
    simp only [lastVal, List.map_cons, List.mem_cons]
    cases hlv : lastVal t k with
    | some w =>
      simp only [Option.isSome_some, true_iff]
      right
      exact (ih k).mp (by rw [hlv]; rfl)
    | none =>
      by_cases h : xk = k
      · subst h; simp
      · have h2 : ¬ k ∈ t.map (fun p => p.1) := by
          rw [← ih k, hlv]
          simp
        have h3 : ¬ (k = xk) := fun h4 => h h4.symm
        simp [h, h3, h2]

theorem imLookup_isSome {β : Type} (m : List (String × β)) (k : String) :
    (imLookup m k).isSome = true ↔ k ∈ m.map (fun p => p.1) := by
  rw [imLookup]
  cases hf : m.find? (fun p => p.1 == k) with
  | none =>
    have hall := List.find?_eq_none.mp hf
    constructor
    · intro h
      exact absurd h (by simp)
    · intro hmem
      exfalso
      rcases List.mem_map.mp hmem with ⟨x, hx, hfx⟩
      exact (hall x hx) (by simp [hfx])
  | some p =>
    have hpk := List.find?_some hf
    have hpmem := List.mem_of_find?_eq_some hf
    simp only [Option.map_some', Option.isSome_some, true_iff]
    exact List.mem_map.mpr ⟨p, hpmem, by simpa using hpk⟩

theorem mem_keys_imOfList {β : Type} (l : List (String × β)) (k : String) :
    k ∈ (imOfList l).map (fun p => p.1) ↔ k ∈ l.map (fun p => p.1) := by
  rw [← imLookup_isSome, imLookup_imOfList, lastVal_isSome]

theorem imLookup_eq_none {β : Type} (m : List (String × β)) (k : String) :
    imLookup m k = none ↔ ¬ k ∈ m.map (fun p => p.1) := by
  rw [← imLookup_isSome]
  cases imLookup m k <;> simp

theorem lastVal_eq_some_iff {β : Type} :
    ∀ (l : List (String × β)), (l.map (fun p => p.1)).Nodup → ∀ (k : String) (v : β),
    (lastVal l k = some v ↔ (k, v) ∈ l) := by
  intro l
  induction l with
  | nil => intro _ k v; simp [lastVal]
  | cons x t ih =>
    intro hn k v
    obtain ⟨xk, xv⟩ := x
    simp only [List.map_cons, List.nodup_cons] at hn
    obtain ⟨hxk, hnt⟩ := hn
    simp only [lastVal, List.mem_cons]
    cases hlv : lastVal t k with
    | some w =>
      have hkmem : k ∈ t.map (fun p => p.1) := (lastVal_isSome t k).mp (by rw [hlv]; rfl)
      have hne : ¬ ((k, v) = (xk, xv)) := by
        intro h
        apply hxk
        rw [← (Prod.mk.injEq k v xk xv).mp h |>.1]
        exact hkmem
      constructor
      · intro h2
        right
        refine (ih hnt k v).mp ?_
        rw [hlv]
        exact h2
      · intro h2
        rcases h2 with h2 | h2
        · exact absurd h2 hne
        · have h3 := (ih hnt k v).mpr h2
          rw [hlv] at h3
          exact h3
    | none =>
      have hknot : ¬ k ∈ t.map (fun p => p.1) := by
        rw [← lastVal_isSome t k, hlv]
        simp
      have htail : ¬ ((k, v) ∈ t) := by
        intro h2
        exact hknot (List.mem_map.mpr ⟨(k, v), h2, rfl⟩)
      by_cases h : xk = k
      · subst h
        rw [if_pos rfl]
        constructor
        · intro h2
          left
          rw [Option.some_inj.mp h2]
        · intro h2
          rcases h2 with h2 | h2
          · rw [(Prod.mk.injEq xk v xk xv).mp h2 |>.2]
          · exact absurd h2 htail
      · rw [if_neg h]
        constructor
        · intro h2; cases h2
        · intro h2
          rcases h2 with h2 | h2
          · exact absurd ((Prod.mk.injEq k v xk xv).mp h2 |>.1) (fun h3 => h h3.symm)
          · exact absurd h2 htail

theorem lastVal_perm {β : Type} {l1 l2 : List (String × β)} (hp : l1.Perm l2)
    (hn : (l1.map (fun p => p.1)).Nodup) (k : String) :
    lastVal l1 k = lastVal l2 k := by
  have hn2 : (l2.map (fun p => p.1)).Nodup := ((hp.map (fun p => p.1)).nodup_iff).mp hn
  cases h1 : lastVal l1 k with
  | some v =>
    have hmem : (k, v) ∈ l1 := (lastVal_eq_some_iff l1 hn k v).mp h1
    exact ((lastVal_eq_some_iff l2 hn2 k v).mpr (hp.mem_iff.mp hmem)).symm
  | none =>
    have hknot : ¬ k ∈ l1.map (fun p => p.1) := by
      rw [← lastVal_isSome l1 k, h1]
      simp
    cases h3 : lastVal l2 k with
    | none => rfl
    | some w =>
      exfalso
      have hmem : (k, w) ∈ l2 := (lastVal_eq_some_iff l2 hn2 k w).mp h3
      have hmem1 : (k, w) ∈ l1 := hp.mem_iff.mpr hmem
      exact hknot (List.mem_map.mpr ⟨(k, w), hmem1, rfl⟩)

theorem imLookup_imOfList_perm {β : Type} {l1 l2 : List (String × β)} (hp : l1.Perm l2)
    (hn : (l1.map (fun p => p.1)).Nodup) (k : String) :
    imLookup (imOfList l1) k = imLookup (imOfList l2) k := by
  rw [imLookup_imOfList, imLookup_imOfList]
  exact lastVal_perm hp hn k

theorem reconcileDefaults_length {α : Type} (argNames : List String)
    (decls : List (String × Span × α)) :
    (reconcileDefaults argNames decls).length ≤ argNames.length := by
  rw [reconcileDefaults, List.length_map]
  exact length_btreeSet_le argNames

theorem expandInner_eq_innerLoop {α : Type} (args : List String)
    (table : List (String × Option α)) (es : List α) (pairs : List (String × α))
    (h : es.length ≤ args.length) :
    expandInner args table es pairs =
      innerLoop args (args.drop es.length) (table.drop es.length) es pairs := by
  simp only [expandInner]
  rw [if_pos h]

theorem innerLoop_zip {α : Type} (args : List String) :
    ∀ (todoA : List String) (tdefs : List (String × Option α)) (es : List α) (vs : List α),
    vs.length = todoA.length → tdefs.length ≤ todoA.length →
    innerLoop args todoA tdefs es (todoA.zip vs) = Expansion.call (es ++ vs) := by
  intro todoA
  induction todoA with
  | nil =>
    intro tdefs es vs h1 h2
    have hvs : vs = [] := List.eq_nil_of_length_eq_zero (by simpa using h1)
    have htd : tdefs = [] := List.eq_nil_of_length_eq_zero (Nat.le_zero.mp (by simpa using h2))
    subst hvs
    subst htd
    simp [innerLoop]
  | cons a tA ih =>
    intro tdefs es vs h1 h2
    cases vs with
    | nil => exact absurd h1 (by simp)
    | cons w wt =>
      have h1b : wt.length = tA.length := by simpa using h1
      have h2b : tdefs.tail.length ≤ tA.length := by
        have h3 := List.length_tail tdefs
        simp only [List.length_cons] at h2
        omega
      rw [List.zip_cons_cons]
      simp only [innerLoop, if_true]
      rw [ih tdefs.tail (es ++ [w]) wt h1b h2b]
      simp

theorem extractArgsAux_idents : ∀ (names : List String) (i : Nat),
    extractArgsAux i (names.map (fun n => FnArg.typed (Pat.ident n))) =
      ExtractRes.ok names := by
  intro names
  induction names with
  | nil => intro i; rfl
  | cons n t ih =>
    intro i
    simp only [List.map_cons, extractArgsAux, ih (i + 1)]

theorem extractArgsAux_receiver : ∀ (pre : List String) (i : Nat) (post : List FnArg),
    extractArgsAux i ((pre.map (fun n => FnArg.typed (Pat.ident n))) ++
        FnArg.receiver :: post) =
      ExtractRes.failed (Span.param (i + pre.length)) strReceiverMsg := by
  intro pre
  induction pre with
  | nil => intro i post; simp [extractArgsAux]
  | cons n t ih =>
    intro i post
    simp only [List.map_cons, List.cons_append, List.length_cons, extractArgsAux,
      List.append_eq]
    rw [ih (i + 1) post]
    have harith : i + 1 + t.length = i + (t.length + 1) := by omega
    show ExtractRes.failed (Span.param (i + 1 + t.length)) strReceiverMsg =
      ExtractRes.failed (Span.param (i + (t.length + 1))) strReceiverMsg
    rw [harith]

theorem extractArgsAux_pattern : ∀ (pre : List String) (i : Nat) (post : List FnArg)
    (d : String),
    extractArgsAux i ((pre.map (fun n => FnArg.typed (Pat.ident n))) ++
        FnArg.typed (Pat.other d) :: post) =
      ExtractRes.panicked d := by
  intro pre
  induction pre with
  | nil => intro i post d; rfl
  | cons n t ih =>
    intro i post d
    simp only [List.map_cons, List.cons_append, extractArgsAux, List.append_eq]
    rw [ih (i + 1) post d]

theorem mem_missingAtZero {α : Type} (argNames : List String)
    (decls : List (String × Span × α)) (x : String) :
    x ∈ ((reconcileDefaults argNames decls).filter (fun p => p.2.isNone)).map
        (fun p => p.1) ↔
      (x ∈ argNames ∧ ¬ x ∈ decls.map (fun d => d.1)) := by
  constructor
  · intro h
    rcases List.mem_map.mp h with ⟨p, hpf, hpx⟩
    rcases List.mem_filter.mp hpf with ⟨hpt, hnone⟩
    rcases List.mem_map.mp hpt with ⟨a, hab, hap⟩
    have hax : a = x := by rw [← hap] at hpx; exact hpx
    subst hax
    rw [← hap] at hnone
    simp only [Option.isNone_iff_eq_none] at hnone
    have hnone2 : imLookup (imOfList decls) a = none := by
      cases himl : imLookup (imOfList decls) a with
      | none => rfl
      | some z =>
        rw [himl] at hnone
        simp at hnone
    constructor
    · exact mem_btreeSet.mp hab
    · rw [← mem_keys_imOfList]
      rw [imLookup_eq_none] at hnone2
      exact hnone2
  · rintro ⟨hmem, hnot⟩
    have hlook : imLookup (imOfList decls) x = none := by
      rw [imLookup_eq_none, mem_keys_imOfList]
      exact hnot
    refine List.mem_map.mpr ⟨(x, (imLookup (imOfList decls) x).map (fun p => p.2)), ?_, rfl⟩
    refine List.mem_filter.mpr ⟨?_, ?_⟩
    · exact List.mem_map.mpr ⟨x, mem_btreeSet.mpr hmem, rfl⟩
    · rw [hlook]
      rfl

theorem expandPublic_cons_nil_pairs {α : Type} (a0 : String) (t : List String)
    (table : List (String × Option α)) :
    expandPublic (a0 :: t) table ([] : List (String × α)) =
      (if (((table.filter (fun p => p.2.isNone)).map (fun p => p.1)).isEmpty) then
        Expansion.call (([] : List α) ++ table.filterMap (fun p => p.2))
      else
        Expansion.err (ExpErr.missingRequired
          ((table.filter (fun p => p.2.isNone)).map (fun p => p.1)))) := by
  show expandInner (a0 :: t) table [] [] = _
  simp only [expandInner, List.length_nil, List.drop_zero]
  rw [if_pos (Nat.zero_le _)]
  rfl

/-- C1.  The Resolved Argument Table does keep exactly one entry per declared
parameter name with `some` exactly for the declared defaults, but its entries
come out in the sorted order of the parameter names, not in the declaration
order: for declaration order `(b, a)` with a default for `b`, the table is
keyed `[a, b]` instead of `[b, a]`, because the reconciler iterates the
`BTreeSet` of parameter names when building it while the generator consumes
the table positionally against the declaration-ordered parameter list. -/
theorem c1_table_order_is_sorted_not_declaration :
    reconcileDefaults ["b", "a"] [("b", Span.src 0, (7 : Nat))] =
      [("a", (none : Option Nat)), ("b", some 7)] ∧
    (reconcileDefaults ["b", "a"] [("b", Span.src 0, (7 : Nat))]).map (fun p => p.1) ≠
      ["b", "a"] := by
  constructor
  · rfl
  · decide

/-- C2.  Counterexample to the skipped-parameter contract: for declaration
order `(b, a)` with a default declared only for `a`, the invocation
`f!(a = 5)` must fail (the skipped parameter `b` has no default), but the
expansion succeeds and calls the renamed function as `__f(1, 5)`, filling
the position of `b` with the default expression declared for `a`. -/
theorem c2_skip_fills_wrong_default :
    expandPublic ["b", "a"]
      (reconcileDefaults ["b", "a"] [("a", Span.src 0, (1 : Nat))])
      [("a", 5)] = Expansion.call [1, 5] := by
  decide

/-- C3.  Invoking the public matcher with all declared parameters named in
declaration order always succeeds and expands to the positional call of the
renamed function with exactly the supplied value expressions, for every
defaults configuration. -/
theorem c3_full_invocation_is_positional_call {α : Type} (argNames : List String)
    (decls : List (String × Span × α)) (vs : List α)
    (hlen : vs.length = argNames.length) :
    expandPublic argNames (reconcileDefaults argNames decls) (argNames.zip vs) =
      Expansion.call vs := by
  cases argNames with
  | nil =>
    have hvs : vs = [] := List.eq_nil_of_length_eq_zero (by simpa using hlen)
    subst hvs
    rfl
  | cons a0 t =>
    cases vs with
    | nil => exact absurd hlen (by simp)
    | cons v0 vt =>
      rw [List.zip_cons_cons]
      show expandPublic (a0 :: t) (reconcileDefaults (a0 :: t) decls)
        ((a0, v0) :: t.zip vt) = Expansion.call (v0 :: vt)
      simp only [expandPublic, if_true]
      rw [expandInner_eq_innerLoop (a0 :: t) (reconcileDefaults (a0 :: t) decls) [v0]
        (t.zip vt) (by simp)]
      simp only [List.length_singleton, List.drop_one, List.tail_cons]
      have hlen2 : vt.length = t.length := by simpa using hlen
      have htd : ((reconcileDefaults (a0 :: t) decls).tail).length ≤ t.length := by
        have h1 := reconcileDefaults_length (a0 :: t) decls
        simp only [List.length_cons] at h1
        rw [List.length_tail]
        omega
      rw [innerLoop_zip (a0 :: t) t ((reconcileDefaults (a0 :: t) decls).tail) [v0] vt
        hlen2 htd]
      simp

/-- Witness for C3 at a concrete function and invocation. -/
theorem c3_witness :
    expandPublic ["x", "y"]
      (reconcileDefaults ["x", "y"] ([] : List (String × Span × Nat)))
      (["x", "y"].zip [10, 20]) = Expansion.call [10, 20] :=
  c3_full_invocation_is_positional_call ["x", "y"] [] [10, 20] rfl

theorem isEmpty_eq_true_iff {γ : Type} (l : List γ) : l.isEmpty = true ↔ l = [] := by
  cases l <;> simp

theorem strEq_of_data {a b : String} (h : a.data = b.data) : a = b := by
  cases a
  cases b
  simp_all

theorem strApp_assoc (a b c : String) : (a ++ b) ++ c = a ++ (b ++ c) := by
  apply strEq_of_data
  simp [String.data_append, List.append_assoc]

theorem strApp_cancel_left {a b c : String} (h : a ++ b = a ++ c) : b = c := by
  apply strEq_of_data
  have h2 := congrArg String.data h
  rw [String.data_append, String.data_append] at h2
  exact List.append_cancel_left h2

theorem strApp_cancel_right {a b c : String} (h : a ++ c = b ++ c) : a = b := by
  apply strEq_of_data
  have h2 := congrArg String.data h
  rw [String.data_append, String.data_append] at h2
  exact List.append_cancel_right h2

/-- C4.  The empty invocation of the public matcher succeeds exactly when
every declared parameter has a declared default; otherwise it expands to the
missing-required compile error whose name list is exactly the set of
non-defaulted parameters (so it names the first of them and indeed all of
them), and the rendered message takes the singular or plural form according
to how many names are missing. -/
theorem c4_zero_pairs_success_iff_all_defaulted {α : Type} (argNames : List String)
    (decls : List (String × Span × α)) :
    ((∃ vs, expandPublic argNames (reconcileDefaults argNames decls)
        ([] : List (String × α)) = Expansion.call vs) ↔
      ∀ a ∈ argNames, a ∈ decls.map (fun d => d.1)) ∧
    (∀ x, x ∈ ((reconcileDefaults argNames decls).filter
          (fun p => p.2.isNone)).map (fun p => p.1) ↔
        (x ∈ argNames ∧ ¬ x ∈ decls.map (fun d => d.1))) ∧
    (((reconcileDefaults argNames decls).filter (fun p => p.2.isNone)).map
        (fun p => p.1) ≠ [] →
      expandPublic argNames (reconcileDefaults argNames decls) ([] : List (String × α)) =
        Expansion.err (ExpErr.missingRequired
          (((reconcileDefaults argNames decls).filter (fun p => p.2.isNone)).map
            (fun p => p.1)))) ∧
    (∀ ms : List String,
      reportMissing ms = (if ms.length = 1 then strMustSingPre else strMustPlurPre) ++
        formatNames ms) := by
  refine ⟨?_, mem_missingAtZero argNames decls, ?_, ?_⟩
  · cases argNames with
    | nil =>
      constructor
      · intro _ a ha
        exact absurd ha (List.not_mem_nil a)
      · intro _
        exact ⟨[], rfl⟩
    | cons a0 t =>
      rw [expandPublic_cons_nil_pairs]
      by_cases hempty : (((reconcileDefaults (a0 :: t) decls).filter
          (fun p => p.2.isNone)).map (fun p => p.1)).isEmpty = true
      · rw [if_pos hempty]
        constructor
        · intro _ a ha
          by_contra hnot
          have hx := (mem_missingAtZero (a0 :: t) decls a).mpr ⟨ha, hnot⟩
          rw [(isEmpty_eq_true_iff _).mp hempty] at hx
          exact absurd hx (List.not_mem_nil a)
        · intro _
          exact ⟨_, rfl⟩
      · rw [if_neg hempty]
        constructor
        · rintro ⟨vs, hvs⟩
          simp at hvs
        · intro hall
          exfalso
          apply hempty
          rw [isEmpty_eq_true_iff, List.eq_nil_iff_forall_not_mem]
          intro x hx
          rcases (mem_missingAtZero (a0 :: t) decls x).mp hx with ⟨hx1, hx2⟩
          exact hx2 (hall x hx1)
  · intro hne
    cases argNames with
    | nil => exact absurd rfl hne
    | cons a0 t =>
      rw [expandPublic_cons_nil_pairs]
      rw [if_neg (by
        intro h
        exact hne ((isEmpty_eq_true_iff _).mp h))]
  · intro ms
    by_cases h : ms.length = 1
    · simp only [reportMissing, h, if_pos]
      congr 1
    · simp only [reportMissing, h, if_neg, ite_false]
      congr 1

/-- Witness for C4 at a concrete function with two required parameters. -/
theorem c4_witness :
    expandPublic ["x", "y"]
      (reconcileDefaults ["x", "y"] ([] : List (String × Span × Nat)))
      ([] : List (String × Nat)) =
      Expansion.err (ExpErr.missingRequired ["x", "y"]) := by
  have h := (c4_zero_pairs_success_iff_all_defaulted ["x", "y"]
    ([] : List (String × Span × Nat))).2.2.1 (by decide)
  simpa using h

/-- C6 counterexample.  With a duplicated declaration name, permuting the
default declarations changes the Resolved Argument Table, because the later
declaration wins: `defaults(a=1, a=2)` resolves `a` to `2` while the permuted
`defaults(a=2, a=1)` resolves it to `1`. -/
theorem c6_duplicate_name_counterexample :
    List.Perm [("a", Span.src 0, (1 : Nat)), ("a", Span.src 1, 2)]
      [("a", Span.src 1, (2 : Nat)), ("a", Span.src 0, 1)] ∧
    reconcileDefaults ["a"] [("a", Span.src 0, (1 : Nat)), ("a", Span.src 1, 2)] ≠
      reconcileDefaults ["a"] [("a", Span.src 1, (2 : Nat)), ("a", Span.src 0, 1)] := by
  constructor
  · exact List.Perm.swap _ _ _
  · decide

/-- C6 amended.  When the default declarations carry pairwise distinct names
(the only case the duplicate-overwrite rule leaves order-independent),
permuting the declarations does not change the Resolved Argument Table; in
particular the table for parameters `(a, b, c)` built from
`defaults(c=3, b=2, a=1)` equals the one built from `defaults(a=1, b=2, c=3)`. -/
theorem c6_table_invariant_under_permutation {α : Type} (argNames : List String)
    (d1 d2 : List (String × Span × α)) (hperm : d1.Perm d2)
    (hnd : (d1.map (fun p => p.1)).Nodup) :
    reconcileDefaults argNames d1 = reconcileDefaults argNames d2 := by
  unfold reconcileDefaults
  have hf : (fun a => (a, (imLookup (imOfList d1) a).map (fun p => p.2))) =
      (fun a => (a, (imLookup (imOfList d2) a).map (fun p => p.2))) := by
    funext a
    rw [imLookup_imOfList_perm hperm hnd a]
  rw [hf]

/-- Witness for C6 at the concrete configuration from the specification. -/
theorem c6_witness :
    reconcileDefaults ["a", "b", "c"]
      [("c", Span.src 0, (3 : Nat)), ("b", Span.src 1, 2), ("a", Span.src 2, 1)] =
    reconcileDefaults ["a", "b", "c"]
      [("a", Span.src 2, (1 : Nat)), ("b", Span.src 1, 2), ("c", Span.src 0, 3)] :=
  c6_table_invariant_under_permutation ["a", "b", "c"] _ _ (by decide) (by decide)

/-- C7.  The mapping the attribute parsing produces keeps every name at its
first-seen position (its key sequence is the first-seen deduplication of the
declared name sequence) and associates to each name the (location,
expression) value of the last declaration carrying that name. -/
theorem c7_first_seen_order_last_write_wins {α : Type}
    (decls : List (String × Span × α)) :
    (imOfList decls).map (fun p => p.1) = firstKeys (decls.map (fun p => p.1)) ∧
    ∀ k, imLookup (imOfList decls) k = lastVal decls k :=
  ⟨keys_imOfList decls, fun k => imLookup_imOfList decls k⟩

/-- C9 counterexample.  The fixed-prefix derivation collides across distinct
original names: the accumulator name derived from `f` equals the renamed
function name derived from `f_inner`, although `f` and `f_inner` differ. -/
theorem c9_distinct_names_collision :
    innerNameOf "f" = dunderName "f_inner" ∧ ("f" : String) ≠ "f_inner" := by
  constructor
  · decide
  · decide

/-- C9 amended.  The generated names are a pure fixed-prefix transform of the
original name, and the name sets generated for two distinct original names
are disjoint provided neither original name is the other one followed by the
accumulator suffix `_inner` (the one collision channel of the scheme; the
colliding pair even then lives in different Rust namespaces, a function and a
macro). -/
theorem c9_derived_names_disjoint (n1 n2 : String) (h1 : n1 ≠ n2)
    (h2 : n1 ≠ n2 ++ strInnerSfx) (h3 : n2 ≠ n1 ++ strInnerSfx) :
    ∀ x, x ∈ derivedNames n1 → ¬ x ∈ derivedNames n2 := by
  intro x hx1 hx2
  simp only [derivedNames, List.mem_cons, List.not_mem_nil, or_false] at hx1 hx2
  rcases hx1 with hx1 | hx1 <;> rcases hx2 with hx2 | hx2
  · subst hx1
    simp only [dunderName] at hx2
    exact h1 (strApp_cancel_left hx2)
  · subst hx1
    simp only [dunderName, innerNameOf] at hx2
    rw [strApp_assoc] at hx2
    exact h2 (strApp_cancel_left hx2)
  · subst hx1
    simp only [dunderName, innerNameOf] at hx2
    rw [strApp_assoc] at hx2
    exact h3 (strApp_cancel_left hx2.symm)
  · subst hx1
    simp only [innerNameOf, dunderName] at hx2
    exact h1 (strApp_cancel_left (strApp_cancel_right hx2))

/-- Witness for C9 at two ordinary distinct names. -/
theorem c9_witness : ¬ dunderName "f" ∈ derivedNames "g" :=
  c9_derived_names_disjoint "f" "g" (by decide) (by decide) (by decide)
    (dunderName "f") (by decide)

/-- C10 counterexample.  A receiver parameter is rejected through an ordinary
located recoverable diagnostic, which the generator turns into the degenerate
fallback construct, while a non-identifier pattern aborts macro processing;
the input `[self]` therefore does not produce the immediate abort the claim
asserts, and the two cases are treated differently. -/
theorem c10_receiver_not_an_abort :
    extractArgs [FnArg.receiver] = ExtractRes.failed (Span.param 0) strReceiverMsg ∧
    extractArgs [FnArg.typed (Pat.other "tuple pattern")] =
      ExtractRes.panicked "tuple pattern" ∧
    namedExpand [FnArg.receiver] ([] : List (String × Span × Nat)) =
      NamedOut.fallback (Span.param 0) strReceiverMsg :=
  ⟨rfl, rfl, rfl⟩

/-- C10 amended.  Processing stops at the first offending parameter: a
receiver yields a located recoverable error at that parameter (which flows
into the degenerate fallback construct), while a non-simple-identifier
pattern aborts macro processing; the two treatments differ. -/
theorem c10_first_offender_decides_treatment (pre : List String) (post : List FnArg)
    (d : String) :
    extractArgs ((pre.map (fun n => FnArg.typed (Pat.ident n))) ++
        FnArg.receiver :: post) =
      ExtractRes.failed (Span.param pre.length) strReceiverMsg ∧
    extractArgs ((pre.map (fun n => FnArg.typed (Pat.ident n))) ++
        FnArg.typed (Pat.other d) :: post) = ExtractRes.panicked d := by
  constructor
  · rw [extractArgs, extractArgsAux_receiver pre 0 post]
    simp
  · rw [extractArgs, extractArgsAux_pattern pre 0 post d]

theorem extrasMsg_false_spelled (s : String) (fn : List String) :
    extrasMsg s false fn = strUnrecSingPre ++ s ++ strUnrec3 ++
      (if fn.length = 1 then strEmpty else strS) ++ strUnrec4 ++
      String.intercalate strCommaSep fn ++ strRBracket := by
  simp only [extrasMsg, Bool.false_eq_true, if_false, ite_false]
  congr 1

theorem extrasMsg_true_spelled (s : String) (fn : List String) :
    extrasMsg s true fn = strUnrecPlurPre ++ s ++ strUnrec3 ++
      (if fn.length = 1 then strEmpty else strS) ++ strUnrec4 ++
      String.intercalate strCommaSep fn ++ strRBracket := by
  simp only [extrasMsg, if_true]
  congr 1

theorem reconcile_idents {α : Type} (argNames : List String)
    (decls : List (String × Span × α)) :
    reconcile (argNames.map (fun n => FnArg.typed (Pat.ident n))) decls =
      match extrasOf argNames decls with
      | [] => ReconcileRes.ok argNames (reconcileDefaults argNames decls)
      | [e] =>
        ReconcileRes.failed
          (((imLookup (imOfList decls) e).map (fun p => p.1)).getD Span.callSite)
          (extrasMsg (strBacktick ++ e ++ strBacktick) false (btreeSet argNames))
      | es =>
        ReconcileRes.failed Span.callSite
          (extrasMsg (strLBracket ++ String.intercalate strCommaSep es ++ strRBracket)
            true (btreeSet argNames)) := by
  have hex : extractArgs (argNames.map (fun n => FnArg.typed (Pat.ident n))) =
      ExtractRes.ok argNames := extractArgsAux_idents argNames 0
  unfold reconcile
  rw [hex]

/-- C5.  Whenever some default declaration names an identifier that is not a
declared parameter, reconciliation (over a well-formed all-identifier
signature) fails before any matcher is generated, producing the single extras
diagnostic: the extras are exactly the declared-but-unknown names in sorted
order; with exactly one extra the diagnostic sits at the stored source
location of that declaration and names it in backticks, and with several
extras it sits at
the call site, lists them all in sorted order, and uses the plural message
form. -/
theorem c5_extra_default_names_fail {α : Type} (argNames : List String)
    (decls : List (String × Span × α))
    (hextra : ∃ d ∈ decls, ¬ d.1 ∈ argNames) :
    (∀ x, x ∈ extrasOf argNames decls ↔
      (x ∈ decls.map (fun d => d.1) ∧ ¬ x ∈ argNames)) ∧
    extrasOf argNames decls ≠ [] ∧
    (extrasOf argNames decls).Pairwise (fun a b => strLtB a b = true) ∧
    ∃ sp msg,
      reconcile (argNames.map (fun n => FnArg.typed (Pat.ident n))) decls =
        ReconcileRes.failed sp msg ∧
      namedExpand (argNames.map (fun n => FnArg.typed (Pat.ident n))) decls =
        NamedOut.fallback sp msg ∧
      (∀ e, extrasOf argNames decls = [e] →
        (∃ sp0 v, imLookup (imOfList decls) e = some (sp0, v) ∧ sp = sp0) ∧
        msg = strUnrecSingPre ++ (strBacktick ++ e ++ strBacktick) ++ strUnrec3 ++
          (if (btreeSet argNames).length = 1 then strEmpty else strS) ++ strUnrec4 ++
          String.intercalate strCommaSep (btreeSet argNames) ++ strRBracket) ∧
      (2 ≤ (extrasOf argNames decls).length →
        sp = Span.callSite ∧
        msg = strUnrecPlurPre ++
          (strLBracket ++
            String.intercalate strCommaSep (extrasOf argNames decls) ++ strRBracket) ++
          strUnrec3 ++
          (if (btreeSet argNames).length = 1 then strEmpty else strS) ++ strUnrec4 ++
          String.intercalate strCommaSep (btreeSet argNames) ++ strRBracket) := by
  have hks : ∀ x, x ∈ extrasOf argNames decls ↔
      (x ∈ decls.map (fun d => d.1) ∧ ¬ x ∈ argNames) := by
    intro x
    rw [extrasOf, List.mem_filter, mem_btreeSet, mem_keys_imOfList]
    simp [mem_btreeSet]
  have hne : extrasOf argNames decls ≠ [] := by
    rcases hextra with ⟨dd, hdd, hdnot⟩
    intro hnil
    have hmem : dd.1 ∈ extrasOf argNames decls :=
      (hks dd.1).mpr ⟨List.mem_map.mpr ⟨dd, hdd, rfl⟩, hdnot⟩
    rw [hnil] at hmem
    exact absurd hmem (List.not_mem_nil _)
  refine ⟨hks, hne, ?_, ?_⟩
  · rw [extrasOf]
    exact List.Pairwise.filter _ (btreeSet_pairwise _)
  · rcases hE : extrasOf argNames decls with _ | ⟨e, _ | ⟨e2, rest2⟩⟩
    · exact absurd hE hne
    · refine ⟨((imLookup (imOfList decls) e).map (fun p => p.1)).getD Span.callSite,
        extrasMsg (strBacktick ++ e ++ strBacktick) false (btreeSet argNames),
        ?_, ?_, ?_, ?_⟩
      · rw [reconcile_idents, hE]
      · unfold namedExpand
        rw [reconcile_idents, hE]
      · intro e2 hE2
        have he2 : e2 = e := by
          simp only [List.cons.injEq, and_true] at hE2
          exact hE2.symm
        rw [he2]
        constructor
        · have hmem : e ∈ extrasOf argNames decls := by
            rw [hE]
            exact List.mem_cons_self _ _
          have hkey : e ∈ decls.map (fun d => d.1) := ((hks e).mp hmem).1
          have hsome : (imLookup (imOfList decls) e).isSome = true := by
            rw [imLookup_isSome, mem_keys_imOfList]
            exact hkey
          obtain ⟨⟨sp0, v⟩, hv⟩ := Option.isSome_iff_exists.mp hsome
          refine ⟨sp0, v, hv, ?_⟩
          rw [hv]
          rfl
        · exact extrasMsg_false_spelled _ _
      · intro h2
        exfalso
        simp at h2
    · refine ⟨Span.callSite,
        extrasMsg (strLBracket ++
          String.intercalate strCommaSep (e :: e2 :: rest2) ++ strRBracket) true
          (btreeSet argNames), ?_, ?_, ?_, ?_⟩
      · rw [reconcile_idents, hE]
      · unfold namedExpand
        rw [reconcile_idents, hE]
      · intro e3 hE3
        simp at hE3
      · intro _
        refine ⟨rfl, ?_⟩
        exact extrasMsg_true_spelled _ _

/-- Witness for C5 at a single unknown default name. -/
theorem c5_witness :
    extrasOf ["x"] [("y", Span.src 0, (0 : Nat))] ≠ [] :=
  (c5_extra_default_names_fail ["x"] [("y", Span.src 0, (0 : Nat))] (by decide)).2.1

theorem exOk_map {ε γ δ : Type} (f : γ → δ) (e : Except ε γ) :
    exOk (e.map f) = exOk e := by
  cases e <;> rfl

theorem parsePairs_lang_fuel : ∀ (n : Nat) (ts : List Tok), ts.length ≤ n →
    exOk (parsePairs ts) = pairsLang ts := by
  intro n
  induction n with
  | zero =>
    intro ts h
    have hnil : ts = [] := List.eq_nil_of_length_eq_zero (Nat.le_zero.mp h)
    subst hnil
    rfl
  | succ n ih =>
    intro ts h
    cases ts with
    | nil => rfl
    | cons u r1 =>
      cases u with
      | lit x => rfl
      | eq => rfl
      | comma => rfl
      | group dd g => rfl
      | ident m =>
        cases r1 with
        | nil => rfl
        | cons u2 r2 =>
          cases u2 with
          | ident m2 => rfl
          | lit x => rfl
          | comma => rfl
          | group dd g => rfl
          | eq =>
            cases r2 with
            | nil => rfl
            | cons t rest =>
              cases rest with
              | nil =>
                cases hat : isAtomTok t <;> simp [parsePairs, pairsLang, hat, exOk]
              | cons u3 r3 =>
                cases u3 with
                | comma =>
                  cases hat : isAtomTok t with
                  | false => simp [parsePairs, pairsLang, hat, exOk]
                  | true =>
                    have hr3 : r3.length ≤ n := by
                      simp only [List.length_cons] at h
                      omega
                    have ihr := ih r3 hr3
                    simp [parsePairs, pairsLang, hat, exOk_map, ihr]
                | ident z =>
                  cases hat : isAtomTok t <;> simp [parsePairs, pairsLang, hat, exOk]
                | lit z =>
                  cases hat : isAtomTok t <;> simp [parsePairs, pairsLang, hat, exOk]
                | eq =>
                  cases hat : isAtomTok t <;> simp [parsePairs, pairsLang, hat, exOk]
                | group dz gz =>
                  cases hat : isAtomTok t <;> simp [parsePairs, pairsLang, hat, exOk]

theorem exOk_parsePairs_eq (ts : List Tok) : exOk (parsePairs ts) = pairsLang ts :=
  parsePairs_lang_fuel ts.length ts (Nat.le_refl _)

theorem parseAttrs_lang_fuel : ∀ (n : Nat) (ts : List Tok), ts.length ≤ n →
    exOk (parseAttrs ts) = attrLang ts := by
  intro n
  induction n with
  | zero =>
    intro ts h
    have hnil : ts = [] := List.eq_nil_of_length_eq_zero (Nat.le_zero.mp h)
    subst hnil
    rfl
  | succ n ih =>
    intro ts h
    cases ts with
    | nil => rfl
    | cons u r1 =>
      cases u with
      | lit x => rfl
      | eq => rfl
      | comma => rfl
      | group dd g => rfl
      | ident s =>
        cases r1 with
        | nil => cases hs : (s == strDefaults) <;> simp [parseAttrs, attrLang, hs, exOk]
        | cons u2 r2 =>
          cases u2 with
          | ident z => cases hs : (s == strDefaults) <;> simp [parseAttrs, attrLang, hs, exOk]
          | lit z => cases hs : (s == strDefaults) <;> simp [parseAttrs, attrLang, hs, exOk]
          | eq => cases hs : (s == strDefaults) <;> simp [parseAttrs, attrLang, hs, exOk]
          | comma => cases hs : (s == strDefaults) <;> simp [parseAttrs, attrLang, hs, exOk]
          | group dd inner =>
            cases dd with
            | bracket =>
              cases hs : (s == strDefaults) <;> simp [parseAttrs, attrLang, hs, exOk]
            | brace =>
              cases hs : (s == strDefaults) <;> simp [parseAttrs, attrLang, hs, exOk]
            | paren =>
              cases hs : (s == strDefaults) with
              | false =>
                cases r2 with
                | nil => simp [parseAttrs, attrLang, hs, exOk]
                | cons u3 r3 => cases u3 <;> simp [parseAttrs, attrLang, hs, exOk]
              | true =>
                cases hpi : parsePairs inner with
                | error e =>
                  have hpl : pairsLang inner = false := by
                    rw [← exOk_parsePairs_eq, hpi]
                    rfl
                  cases r2 with
                  | nil => simp [parseAttrs, attrLang, hs, hpi, hpl, exOk]
                  | cons u3 r3 =>
                    cases u3 <;> simp [parseAttrs, attrLang, hs, hpi, hpl, exOk]
                | ok ds =>
                  have hpl : pairsLang inner = true := by
                    rw [← exOk_parsePairs_eq, hpi]
                    rfl
                  cases r2 with
                  | nil => simp [parseAttrs, attrLang, hs, hpi, hpl, exOk]
                  | cons u3 r3 =>
                    cases u3 with
                    | comma =>
                      have hr3 : r3.length ≤ n := by
                        simp only [List.length_cons] at h
                        omega
                      have ihr := ih r3 hr3
                      simp [parseAttrs, attrLang, hs, hpi, hpl, exOk_map, ihr]
                    | ident z => simp [parseAttrs, attrLang, hs, hpi, hpl, exOk]
                    | lit z => simp [parseAttrs, attrLang, hs, hpi, hpl, exOk]
                    | eq => simp [parseAttrs, attrLang, hs, hpi, hpl, exOk]
                    | group dz gz => simp [parseAttrs, attrLang, hs, hpi, hpl, exOk]

/-- C8 counterexample.  The empty attribute payload is not of the claimed
single grammar form (keyword plus one parenthesized pair list), yet the
parser accepts it — as it must, since a bare annotation with no configuration
is legal; the parser also accepts comma-separated sequences of several
keyword groups, so the accepted language is strictly larger than the claimed
single form. -/
theorem c8_empty_payload_accepted :
    exOk (parseAttrs []) = true ∧ claimedForm [] = false ∧
    exOk (parseAttrs [Tok.ident "defaults", Tok.group Delim.paren [], Tok.comma,
      Tok.ident "defaults", Tok.group Delim.paren []]) = true ∧
    claimedForm [Tok.ident "defaults", Tok.group Delim.paren [], Tok.comma,
      Tok.ident "defaults", Tok.group Delim.paren []] = false := by
  refine ⟨rfl, rfl, rfl, rfl⟩

/-- C8 amended.  Over the token model (expression operands modelled as single
atomic tokens), the payload parser accepts exactly the language of possibly
empty comma-separated sequences of `defaults ( name = expression , ... )`
groups, with optional trailing commas; every input outside this language is
rejected with a syntax error carrying the unexpected token (or the
end-of-input position). -/
theorem c8_accepted_language (ts : List Tok) :
    exOk (parseAttrs ts) = attrLang ts ∧
    (attrLang ts = false → ∃ e, parseAttrs ts = Except.error e) := by
  have heq := parseAttrs_lang_fuel ts.length ts (Nat.le_refl _)
  refine ⟨heq, ?_⟩
  intro hfalse
  cases hp : parseAttrs ts with
  | ok v =>
    exfalso
    rw [hp] at heq
    rw [hfalse] at heq
    exact absurd heq (by simp [exOk])
  | error e => exact ⟨e, rfl⟩

/-- Witness for C8 at a concrete well-formed payload. -/
theorem c8_witness :
    exOk (parseAttrs [Tok.ident "defaults", Tok.group Delim.paren
      [Tok.ident "a", Tok.eq, Tok.lit 1]]) =
      attrLang [Tok.ident "defaults", Tok.group Delim.paren
        [Tok.ident "a", Tok.eq, Tok.lit 1]] :=
  (c8_accepted_language [Tok.ident "defaults", Tok.group Delim.paren
    [Tok.ident "a", Tok.eq, Tok.lit 1]]).1

end Named
